import Mathlib

/- Verification of the localization pipeline of the codegen repository.

   The definitions below are a shallow embedding of:
   - src/app/lib/textExtractor.ts : extractLocalizationKeys (regex scan and
     first-seen deduplication), determineContext (window classifier),
     translateKeys (translation client), processAndSaveExtractedTexts
     (persistence loop) and processComponentWithTranslations (orchestrator);
   - the sql.js database module (LocalizationEntry, localizations table with
     id PRIMARY KEY and key UNIQUE, createLocalization, getAllLocalizations,
     getTranslations, updateLocalization).

   JavaScript strings are modelled as Lean strings (lists of characters);
   thrown exceptions and sqlite constraint violations are modelled with
   Except; Date.now() is passed in as an explicit timestamp parameter; the
   fetch to the translation service is abstracted as a ServiceResponse
   parameter (fail covers a non-ok response, a thrown network error and a
   response without a success payload, all of which the source treats the
   same way: it keeps the extracted texts untranslated). -/

/-- singleQuote is the apostrophe character, one of the three quote styles
recognised by the extraction regex. -/
def singleQuote : Char := Char.ofNat 39

/-- backQuote is the backtick character, one of the three quote styles
recognised by the extraction regex. -/
def backQuote : Char := Char.ofNat 96

/-- isQuote tests membership in the quote character class of the regex used
by extractLocalizationKeys. The class is shared by the opening delimiter,
the excluded characters of the captured body, and the closing delimiter. -/
def isQuote (c : Char) : Bool := c == singleQuote || c == '"' || c == backQuote

/-- takeRun splits a character list into its maximal quote-free prefix, the
first quote character, and the remainder; none when no quote occurs. The
greedy captured body of the regex excludes all three quote characters, so a
successful capture is exactly the run up to the first quote. -/
def takeRun : List Char → Option (List Char × Char × List Char)
  | [] => none
  | c :: cs =>
    if isQuote c then some ([], c, cs)
    else
      match takeRun cs with
      | none => none
      | some (run, q, rest) => some (c :: run, q, rest)

/-- matchHere attempts the extraction regex at the head of the list: the
letter t, an opening parenthesis, an opening quote, a nonempty quote-free
captured run, a closing quote of any of the three styles, and a closing
parenthesis. Returns the captured run and the characters after the match.
A shorter capture can never succeed because the character at the closing
position would then not be a quote, so this is the regex semantics with
backtracking taken into account. -/
def matchHere : List Char → Option (List Char × List Char)
  | c0 :: c1 :: c2 :: cs =>
    if c0 = 't' ∧ c1 = '(' ∧ isQuote c2 = true then
      match takeRun cs with
      | none => none
      | some (run, _, rest2) =>
        match rest2 with
        | [] => none
        | c3 :: rest => if c3 = ')' ∧ run ≠ [] then some (run, rest) else none
    else none
  | _ => none

/-- scanGo implements the global exec loop of extractLocalizationKeys: at
each position try the pattern; on success record the captured run together
with the match index and resume right after the whole match, otherwise
advance one character. The fuel argument only bounds the recursion depth;
it is always instantiated with the length of the scanned list, which every
step strictly decreases by at least one. -/
def scanGo : Nat → List Char → Nat → List (List Char × Nat)
  | 0, _, _ => []
  | _ + 1, [], _ => []
  | fuel + 1, c :: cs, pos =>
    match matchHere (c :: cs) with
    | some (run, rest) =>
      (run, pos) :: scanGo fuel rest (pos + ((c :: cs).length - rest.length))
    | none => scanGo fuel cs (pos + 1)

/-- rawMatches lists every regex match of a component source, as captured
run and match index, in scan order (before deduplication). -/
def rawMatches (componentCode : String) : List (List Char × Nat) :=
  scanGo componentCode.toList.length componentCode.toList 0

/-- rawKeys is the sequence of captured keys, in scan order, duplicates
included. -/
def rawKeys (componentCode : String) : List String :=
  (rawMatches componentCode).map (fun m => m.1.asString)

/-- containsSeq is substring containment on character lists, modelling the
JavaScript String.includes calls of determineContext. -/
def containsSeq (needle : List Char) : List Char → Bool
  | [] => needle.isEmpty
  | c :: rest => needle.isPrefixOf (c :: rest) || containsSeq needle rest

/-- lowerWindow is the lowercased neighbourhood inspected by
determineContext: 50 characters before and after the match index, clamped
to the bounds of the text. -/
def lowerWindow (code : List Char) (matchIndex : Nat) : List Char :=
  let start := matchIndex - 50
  let stop := min code.length (matchIndex + 50)
  ((code.drop start).take (stop - start)).map Char.toLower

/-- determineContext classifies a match position by testing markers against
the lowercased window in the fixed priority order of the source. -/
def determineContext (code : List Char) (matchIndex : Nat) : String :=
  let context := lowerWindow code matchIndex
  if containsSeq "<button".toList context || containsSeq "onclick".toList context then
    "button"
  else if containsSeq "placeholder".toList context then
    "placeholder"
  else if containsSeq "<h1".toList context || containsSeq "<h2".toList context ||
      containsSeq "<h3".toList context then
    "heading"
  else if containsSeq "<label".toList context then
    "label"
  else if containsSeq "<p>".toList context || containsSeq "<span".toList context then
    "content"
  else
    "general"

/-- TranslationSet is the anonymous six-locale record type nested in the
ExtractedText interface and in the translation service response. -/
structure TranslationSet where
  en : String
  es : String
  fr : String
  de : String
  ja : String
  zh : String
deriving DecidableEq

/-- ExtractedText mirrors the ExtractedText interface of textExtractor.ts;
context and translations are optional fields there. -/
structure ExtractedText where
  key : String
  text : String
  context : Option String
  translations : Option TranslationSet
deriving DecidableEq

/-- ServiceResponse abstracts the fetch to /api/extract-and-translate seen
by translateKeys: ok carries the key-indexed translations object of a
successful response, fail covers a non-ok status, a thrown error, and a
body without the success payload (all handled identically by the source). -/
inductive ServiceResponse where
  | fail
  | ok (translations : List (String × TranslationSet))
deriving DecidableEq

/-- lookupTranslation is property access on the translations object of the
service response. -/
def lookupTranslation : List (String × TranslationSet) → String → Option TranslationSet
  | [], _ => none
  | (k, ts) :: rest, key => if k == key then some ts else lookupTranslation rest key

/-- translateKeys models the translation client: on failure the extracted
texts are returned unchanged (their translations stay absent), on success
each text receives the translations stored under its key, absent when the
response does not cover the key. -/
def translateKeys (svc : ServiceResponse) (extractedTexts : List ExtractedText) :
    List ExtractedText :=
  match svc with
  | .fail => extractedTexts
  | .ok m => extractedTexts.map fun e => { e with translations := lookupTranslation m e.key }

/-- buildExtracted is the deduplication loop of extractLocalizationKeys: a
match whose key is already in the used set is dropped, a fresh key is
pushed with its key as fallback text and the context computed at its match
index, and is added to the used set. -/
def buildExtracted (code : String) : List (List Char × Nat) → List String → List ExtractedText
  | [], _ => []
  | (run, idx) :: rest, usedKeys =>
    let key := run.asString
    if key ∈ usedKeys then buildExtracted code rest usedKeys
    else
      { key := key, text := key, context := some (determineContext code.toList idx),
        translations := none } :: buildExtracted code rest (key :: usedKeys)

/-- extractLocalizationKeys scans the component source, deduplicates keys
keeping first occurrences, and (only when at least one key was found) runs
the translation client over the extracted texts. -/
def extractLocalizationKeys (svc : ServiceResponse) (componentCode : String) :
    List ExtractedText :=
  let extractedTexts := buildExtracted componentCode (rawMatches componentCode) []
  if extractedTexts.isEmpty then extractedTexts
  else translateKeys svc extractedTexts

/-- LocalizationEntry mirrors the LocalizationEntry interface; the optional
created_at and updated_at timestamp columns are omitted, no claim concerns
them. -/
structure LocalizationEntry where
  id : String
  key : String
  en : String
  es : String
  fr : String
  de : String
  ja : String
  zh : String
deriving DecidableEq

/-- DBState is the contents of the localizations table, rows in insertion
order. -/
structure DBState where
  entries : List LocalizationEntry
deriving DecidableEq

/-- insertByKey inserts a row into a list sorted by key. -/
def insertByKey (e : LocalizationEntry) : List LocalizationEntry → List LocalizationEntry
  | [] => [e]
  | x :: xs => if e.key ≤ x.key then e :: x :: xs else x :: insertByKey e xs

/-- sortByKey sorts rows by key (insertion sort). -/
def sortByKey : List LocalizationEntry → List LocalizationEntry
  | [] => []
  | x :: xs => insertByKey x (sortByKey xs)

/-- getAllLocalizations models SELECT star FROM localizations ORDER BY key. -/
def getAllLocalizations (st : DBState) : List LocalizationEntry :=
  sortByKey st.entries

/-- createLocalization models the INSERT of a new row: the sqlite schema
declares id as primary key and key as unique, so a conflicting row makes
the statement throw, which the embedding returns as an error value and the
callers of db.create observe as an exception. -/
def createLocalization (st : DBState) (entry : LocalizationEntry) : Except String DBState :=
  if st.entries.any (fun e => e.id == entry.id) then
    Except.error "UNIQUE constraint failed: localizations.id"
  else if st.entries.any (fun e => e.key == entry.key) then
    Except.error "UNIQUE constraint failed: localizations.key"
  else
    Except.ok { entries := st.entries ++ [entry] }

/-- validLocales is the fixed locale allow-list of getTranslations. -/
def validLocales : List String := ["en", "es", "fr", "de", "ja", "zh"]

/-- localeText selects the column of one locale from a row, as the SELECT
of getTranslations does once the locale passed validation (so the final
branch is only ever reached with zh). -/
def localeText (e : LocalizationEntry) (locale : String) : String :=
  if locale == "en" then e.en
  else if locale == "es" then e.es
  else if locale == "fr" then e.fr
  else if locale == "de" then e.de
  else if locale == "ja" then e.ja
  else e.zh

/-- getTranslations validates the locale against the fixed six-locale set
and only then reads the table, returning the key-to-text pairs of every
row; an invalid locale throws before any query runs. The JavaScript
null-coalescing to the empty string is the identity here because every
modelled column holds a string. -/
def getTranslations (st : DBState) (locale : String) : Except String (List (String × String)) :=
  if validLocales.contains locale then
    Except.ok (st.entries.map fun e => (e.key, localeText e locale))
  else
    Except.error ("Invalid locale: " ++ locale)

/-- validFields is the fixed field allow-list of updateLocalization. -/
def validFields : List String := ["key", "en", "es", "fr", "de", "ja", "zh"]

/-- setField writes one column of a row (the zh branch is only reached for
zh after validation, mirroring localeText). -/
def setField (e : LocalizationEntry) (field value : String) : LocalizationEntry :=
  if field == "key" then { e with key := value }
  else if field == "en" then { e with en := value }
  else if field == "es" then { e with es := value }
  else if field == "fr" then { e with fr := value }
  else if field == "de" then { e with de := value }
  else if field == "ja" then { e with ja := value }
  else { e with zh := value }

/-- updateLocalization validates the field name against the fixed allow-list
before running any statement; an invalid field throws and the table is left
untouched. A valid UPDATE rewrites the rows matching the id, except that
rewriting the key column to a value held by another row violates the unique
constraint on key and throws instead. -/
def updateLocalization (st : DBState) (id field value : String) : Except String DBState :=
  if validFields.contains field then
    if field == "key" && st.entries.any (fun e => e.id == id) &&
        st.entries.any (fun e => e.id != id && e.key == value) then
      Except.error "UNIQUE constraint failed: localizations.key"
    else
      Except.ok { entries := st.entries.map fun e => if e.id == id then setField e field value else e }
  else
    Except.error ("Invalid field: " ++ field)

/-- genId is the id string built for a new row by processAndSaveExtractedTexts,
from the component id, the key and the Date.now() timestamp. -/
def genId (componentId key : String) (now : Nat) : String :=
  componentId ++ "_" ++ key ++ "_" ++ toString now

/-- keyExistsIn tests whether some row of the table holds the key; the
find?-over-getAllLocalizations check of the source is equivalent to it
(proved below). -/
def keyExistsIn (st : DBState) (k : String) : Bool :=
  st.entries.any fun e => e.key == k

/-- processAndSaveExtractedTexts is the persistence loop: for each extracted
text it re-reads the table and looks the key up; an existing key is only
recorded in savedKeys; a new key without translations is skipped with a
warning; a new key with translations is inserted with a freshly built id and
recorded in savedKeys, and a throwing insert is caught, leaving that key
unsaved while the loop continues with the remaining texts. -/
def processAndSaveExtractedTexts (extractedTexts : List ExtractedText)
    (componentId : String) (now : Nat) (st : DBState) : List String × DBState :=
  match extractedTexts with
  | [] => ([], st)
  | extracted :: rest =>
    match (getAllLocalizations st).find? (fun t => t.key == extracted.key) with
    | some _ =>
      let res := processAndSaveExtractedTexts rest componentId now st
      (extracted.key :: res.1, res.2)
    | none =>
      match extracted.translations with
      | none => processAndSaveExtractedTexts rest componentId now st
      | some translations =>
        let newEntry : LocalizationEntry :=
          { id := genId componentId extracted.key now, key := extracted.key,
            en := translations.en, es := translations.es, fr := translations.fr,
            de := translations.de, ja := translations.ja, zh := translations.zh }
        match createLocalization st newEntry with
        | Except.ok st' =>
          let res := processAndSaveExtractedTexts rest componentId now st'
          (extracted.key :: res.1, res.2)
        | Except.error _ => processAndSaveExtractedTexts rest componentId now st

/-- ProcessResult is the value returned by the orchestrator; the
transformedCode component of the source return value is a pure string
transformation of the inputs that never touches the store and no claim
mentions it, so it is not modelled. -/
structure ProcessResult where
  extractedTexts : List ExtractedText
  savedKeys : List String
  state : DBState
deriving DecidableEq

/-- processComponentWithTranslations is the orchestrator: extract and
translate, then persist, then return the extracted texts, the saved keys
and the resulting store. -/
def processComponentWithTranslations (svc : ServiceResponse)
    (originalComponentCode componentId : String) (now : Nat) (st : DBState) : ProcessResult :=
  let extractedTexts := extractLocalizationKeys svc originalComponentCode
  let res := processAndSaveExtractedTexts extractedTexts componentId now st
  { extractedTexts := extractedTexts, savedKeys := res.1, state := res.2 }

/-- contextRules restates, from the specification text, the marker lists of
the classifier in their fixed priority order. -/
def contextRules : List (String × List String) :=
  [("button", ["<button", "onclick"]),
   ("placeholder", ["placeholder"]),
   ("heading", ["<h1", "<h2", "<h3"]),
   ("label", ["<label"]),
   ("content", ["<p>", "<span"])]

/-- determineContextSpec restates the classifier as the specification words
it: take the clamped lowercased 50-character window, return the label of
the first rule whose marker list has a member occurring in the window, and
general when none matches. -/
def determineContextSpec (code : List Char) (matchIndex : Nat) : String :=
  match contextRules.find?
      (fun r => r.2.any fun m => containsSeq m.toList (lowerWindow code matchIndex)) with
  | some r => r.1
  | none => "general"

/- Lemmas about the regex scanner. -/

theorem takeRun_sound {cs run rest : List Char} {q : Char}
    (h : takeRun cs = some (run, q, rest)) :
    cs = run ++ q :: rest ∧ isQuote q = true ∧ ∀ c ∈ run, isQuote c = false := by
  induction cs generalizing run with
  | nil => simp [takeRun] at h
  | cons c cs ih =>
    simp only [takeRun] at h
    by_cases hq : isQuote c
    · rw [if_pos hq] at h
      obtain ⟨h1, h2, h3⟩ : [] = run ∧ c = q ∧ cs = rest := by
        simpa using h
      subst h1; subst h2; subst h3
      exact ⟨rfl, hq, by simp⟩
    · rw [if_neg hq] at h
      cases htr : takeRun cs with
      | none => rw [htr] at h; simp at h
      | some v =>
        obtain ⟨run', q', rest'⟩ := v
        rw [htr] at h
        obtain ⟨h1, h2, h3⟩ : c :: run' = run ∧ q' = q ∧ rest' = rest := by
          simpa using h
        subst h1; subst h2; subst h3
        obtain ⟨e1, e2, e3⟩ := ih htr
        refine ⟨by simp [e1], e2, ?_⟩
        intro x hx
        rcases List.mem_cons.mp hx with hx | hx
        · subst hx; exact Bool.eq_false_iff.mpr hq
        · exact e3 x hx

theorem takeRun_append {run : List Char} {q : Char} (rest : List Char)
    (hrun : ∀ c ∈ run, isQuote c = false) (hq : isQuote q = true) :
    takeRun (run ++ q :: rest) = some (run, q, rest) := by
  induction run with
  | nil => simp [takeRun, hq]
  | cons c cs ih =>
    have hc : isQuote c = false := hrun c (by simp)
    have ih' := ih fun x hx => hrun x (by simp [hx])
    simp [takeRun, hc, ih']

theorem matchHere_sound {l run rest : List Char} (h : matchHere l = some (run, rest)) :
    run ≠ [] ∧ (∀ c ∈ run, isQuote c = false) ∧ l.length = run.length + 5 + rest.length := by
  match l with
  | [] => simp [matchHere] at h
  | [c0] => simp [matchHere] at h
  | [c0, c1] => simp [matchHere] at h
  | c0 :: c1 :: c2 :: cs =>
    simp only [matchHere] at h
    split at h
    · cases htr : takeRun cs with
      | none => rw [htr] at h; simp at h
      | some v =>
        obtain ⟨run', q', rest2⟩ := v
        rw [htr] at h
        cases rest2 with
        | nil => simp at h
        | cons c3 rest' =>
          simp only at h
          split at h
          · rename_i hcond
            obtain ⟨hr, hrest⟩ : run' = run ∧ rest' = rest := by simpa using h
            subst hr; subst hrest
            obtain ⟨e1, _, e3⟩ := takeRun_sound htr
            refine ⟨hcond.2, e3, ?_⟩
            simp [e1]
            omega
          · simp at h
    · simp at h

theorem matchHere_mk {run : List Char} {q1 q2 : Char} (rest : List Char)
    (hq1 : isQuote q1 = true) (hq2 : isQuote q2 = true)
    (hne : run ≠ []) (hrun : ∀ c ∈ run, isQuote c = false) :
    matchHere ('t' :: '(' :: q1 :: (run ++ q2 :: ')' :: rest)) = some (run, rest) := by
  simp [matchHere, hq1, takeRun_append (')' :: rest) hrun hq2, hne]

theorem scanGo_congr : ∀ (f g : Nat) (cs : List Char) (pos : Nat),
    cs.length ≤ f → cs.length ≤ g → scanGo f cs pos = scanGo g cs pos := by
  intro f
  induction f with
  | zero =>
    intro g cs pos hf _
    have : cs = [] := List.length_eq_zero.mp (Nat.le_zero.mp hf)
    subst this
    cases g <;> simp [scanGo]
  | succ f ih =>
    intro g cs pos hf hg
    cases cs with
    | nil => cases g <;> simp [scanGo]
    | cons c cs =>
      cases g with
      | zero => simp at hg
      | succ g =>
        simp only [List.length_cons] at hf hg
        cases hm : matchHere (c :: cs) with
        | none =>
          have hlen : cs.length ≤ f := by omega
          have hlen' : cs.length ≤ g := by omega
          simp only [scanGo, hm]
          exact ih g cs (pos + 1) hlen hlen'
        | some v =>
          obtain ⟨run, rest⟩ := v
          obtain ⟨hne, _, hlen⟩ := matchHere_sound hm
          simp only [List.length_cons] at hlen
          have h1 : rest.length ≤ f := by omega
          have h2 : rest.length ≤ g := by omega
          simp only [scanGo, hm]
          rw [ih g rest _ h1 h2]

theorem scanGo_cons_some {c : Char} {cs run rest : List Char} (pos : Nat)
    (hm : matchHere (c :: cs) = some (run, rest)) :
    scanGo (c :: cs).length (c :: cs) pos =
      (run, pos) :: scanGo rest.length rest (pos + ((c :: cs).length - rest.length)) := by
  obtain ⟨_, _, hlen⟩ := matchHere_sound hm
  simp only [List.length_cons] at hlen ⊢
  have hstep : scanGo (cs.length + 1) (c :: cs) pos =
      (run, pos) :: scanGo cs.length rest (pos + (cs.length + 1 - rest.length)) := by
    simp only [scanGo, hm, List.length_cons]
  rw [hstep]
  congr 1
  exact scanGo_congr cs.length rest.length rest _ (by omega) le_rfl

theorem scanGo_cons_none {c : Char} {cs : List Char} (pos : Nat)
    (hm : matchHere (c :: cs) = none) :
    scanGo (c :: cs).length (c :: cs) pos = scanGo cs.length cs (pos + 1) := by
  simp only [List.length_cons, scanGo, hm]

theorem scanGo_sound : ∀ (f : Nat) (cs : List Char) (pos : Nat) {run : List Char} {idx : Nat},
    (run, idx) ∈ scanGo f cs pos → run ≠ [] ∧ ∀ c ∈ run, isQuote c = false := by
  intro f
  induction f with
  | zero => intro cs pos run idx h; simp [scanGo] at h
  | succ f ih =>
    intro cs pos run idx h
    cases cs with
    | nil => simp [scanGo] at h
    | cons c cs =>
      simp only [scanGo] at h
      cases hm : matchHere (c :: cs) with
      | none => rw [hm] at h; exact ih cs (pos + 1) h
      | some v =>
        obtain ⟨run', rest⟩ := v
        rw [hm] at h
        rcases List.mem_cons.mp h with h | h
        · have h1 : run = run' := congrArg Prod.fst h
          subst h1
          obtain ⟨e1, e2, _⟩ := matchHere_sound hm
          exact ⟨e1, e2⟩
        · exact ih rest _ h

/- Lemmas about the deduplication loop and the extractor. -/

theorem mem_buildExtracted {code : String} {ms : List (List Char × Nat)}
    {used : List String} {e : ExtractedText} (h : e ∈ buildExtracted code ms used) :
    (∃ m ∈ ms, e.key = m.1.asString) ∧ e.translations = none ∧ e.key ∉ used := by
  induction ms generalizing used with
  | nil => simp [buildExtracted] at h
  | cons m rest ih =>
    obtain ⟨run, idx⟩ := m
    simp only [buildExtracted] at h
    by_cases hmem : run.asString ∈ used
    · rw [if_pos hmem] at h
      obtain ⟨⟨m', hm', hk⟩, ht, hu⟩ := ih h
      exact ⟨⟨m', List.mem_cons_of_mem _ hm', hk⟩, ht, hu⟩
    · rw [if_neg hmem] at h
      rcases List.mem_cons.mp h with h | h
      · subst h
        exact ⟨⟨(run, idx), List.mem_cons_self _ _, rfl⟩, rfl, hmem⟩
      · obtain ⟨⟨m', hm', hk⟩, ht, hu⟩ := ih h
        have hu' : e.key ∉ used := fun hx => hu (List.mem_cons_of_mem _ hx)
        exact ⟨⟨m', List.mem_cons_of_mem _ hm', hk⟩, ht, hu'⟩

theorem countP_buildExtracted (code : String) (k : String) :
    ∀ (ms : List (List Char × Nat)) (used : List String),
    (buildExtracted code ms used).countP (fun e => e.key == k) =
      if k ∈ used then 0 else if k ∈ ms.map (fun m => m.1.asString) then 1 else 0 := by
  intro ms
  induction ms with
  | nil => intro used; simp [buildExtracted]
  | cons m rest ih =>
    intro used
    obtain ⟨run, idx⟩ := m
    simp only [buildExtracted, List.map_cons]
    by_cases hmem : run.asString ∈ used
    · rw [if_pos hmem, ih used]
      by_cases hk : k ∈ used
      · simp [hk]
      · have hne : ¬k = run.asString := fun h => hk (h ▸ hmem)
        have hm2 : (k ∈ run.asString :: List.map (fun m => m.1.asString) rest) ↔
            k ∈ List.map (fun m => m.1.asString) rest := by
          simp [List.mem_cons, hne]
        simp only [hk, if_neg, hm2]
    · rw [if_neg hmem, List.countP_cons, ih (run.asString :: used)]
      by_cases hk : k = run.asString
      · subst hk
        simp [hmem, List.mem_cons]
      · have hne : ¬run.asString = k := fun h => hk h.symm
        simp only [List.mem_cons, hk, false_or, beq_iff_eq, hne, if_false]
        by_cases hk2 : k ∈ used
        · simp [hk2]
        · simp [hk2]

/-- firstIdx is the position of the first occurrence of a key in a list
(length of the list when absent); used to state first-seen order. -/
def firstIdx (k : String) : List String → Nat
  | [] => 0
  | x :: xs => if x = k then 0 else firstIdx k xs + 1

theorem firstIdx_cons_ne {x k : String} (l : List String) (h : ¬x = k) :
    firstIdx k (x :: l) = firstIdx k l + 1 := by
  simp [firstIdx, h]

theorem key_of_buildExtracted {code : String} {ms : List (List Char × Nat)}
    {used : List String} {b : String}
    (h : b ∈ (buildExtracted code ms used).map fun e => e.key) :
    (∃ m ∈ ms, b = m.1.asString) ∧ b ∉ used := by
  obtain ⟨e, he, hk⟩ := List.mem_map.mp h
  obtain ⟨⟨m', hm', hk'⟩, _, hu⟩ := mem_buildExtracted he
  subst hk
  exact ⟨⟨m', hm', hk'⟩, hu⟩

theorem buildExtracted_order (code : String) :
    ∀ (ms : List (List Char × Nat)) (used : List String),
    List.Pairwise (fun a b => firstIdx a (ms.map fun m => m.1.asString) <
        firstIdx b (ms.map fun m => m.1.asString))
      ((buildExtracted code ms used).map fun e => e.key) := by
  intro ms
  induction ms with
  | nil => intro used; simp [buildExtracted]
  | cons m rest ih =>
    intro used
    obtain ⟨run, idx⟩ := m
    simp only [buildExtracted, List.map_cons]
    by_cases hmem : run.asString ∈ used
    · rw [if_pos hmem]
      refine (ih used).imp_of_mem ?_
      intro a b ha hb hlt
      have hna : ¬run.asString = a := by
        intro h
        exact absurd hmem (h ▸ (key_of_buildExtracted ha).2)
      have hnb : ¬run.asString = b := by
        intro h
        exact absurd hmem (h ▸ (key_of_buildExtracted hb).2)
      rw [firstIdx_cons_ne _ hna, firstIdx_cons_ne _ hnb]
      omega
    · rw [if_neg hmem]
      simp only [List.map_cons]
      rw [List.pairwise_cons]
      constructor
      · intro b hb
        have hnb : ¬run.asString = b := by
          intro h
          have := (key_of_buildExtracted hb).2
          exact this (h ▸ List.mem_cons_self _ _)
        rw [firstIdx_cons_ne _ hnb]
        simp [firstIdx]
      · refine (ih (run.asString :: used)).imp_of_mem ?_
        intro a b ha hb hlt
        have hna : ¬run.asString = a := by
          intro h
          exact absurd (h ▸ List.mem_cons_self _ _) (key_of_buildExtracted ha).2
        have hnb : ¬run.asString = b := by
          intro h
          exact absurd (h ▸ List.mem_cons_self _ _) (key_of_buildExtracted hb).2
        rw [firstIdx_cons_ne _ hna, firstIdx_cons_ne _ hnb]
        omega

theorem buildExtracted_keys_nodup (code : String) (ms : List (List Char × Nat))
    (used : List String) : ((buildExtracted code ms used).map fun e => e.key).Nodup :=
  (buildExtracted_order code ms used).imp fun hlt heq => absurd (heq ▸ hlt) (lt_irrefl _)

theorem translateKeys_map_key (svc : ServiceResponse) (l : List ExtractedText) :
    (translateKeys svc l).map (fun e => e.key) = l.map fun e => e.key := by
  cases svc with
  | fail => rfl
  | ok m =>
    simp only [translateKeys, List.map_map]
    rfl

theorem extract_map_key (svc : ServiceResponse) (s : String) :
    (extractLocalizationKeys svc s).map (fun e => e.key) =
      (buildExtracted s (rawMatches s) []).map fun e => e.key := by
  unfold extractLocalizationKeys
  by_cases h : (buildExtracted s (rawMatches s) []).isEmpty
  · simp [h]
  · simp [h, translateKeys_map_key]

theorem extract_key_mem {svc : ServiceResponse} {s : String} {e : ExtractedText}
    (h : e ∈ extractLocalizationKeys svc s) : ∃ m ∈ rawMatches s, e.key = m.1.asString := by
  unfold extractLocalizationKeys at h
  by_cases hne : (buildExtracted s (rawMatches s) []).isEmpty
  · rw [if_pos hne] at h
    exact (mem_buildExtracted h).1
  · rw [if_neg hne] at h
    cases svc with
    | fail => exact (mem_buildExtracted h).1
    | ok m =>
      obtain ⟨e', he', hk⟩ := List.mem_map.mp h
      subst hk
      exact (mem_buildExtracted he').1

/- Lemmas about the store. -/

theorem mem_insertByKey {e x : LocalizationEntry} {l : List LocalizationEntry} :
    x ∈ insertByKey e l ↔ x = e ∨ x ∈ l := by
  induction l with
  | nil => simp [insertByKey]
  | cons a l ih =>
    simp only [insertByKey]
    by_cases h : e.key ≤ a.key
    · rw [if_pos h]
      simp only [List.mem_cons]
    · rw [if_neg h]
      simp only [List.mem_cons, ih]
      tauto

theorem mem_sortByKey {x : LocalizationEntry} {l : List LocalizationEntry} :
    x ∈ sortByKey l ↔ x ∈ l := by
  induction l with
  | nil => simp [sortByKey]
  | cons a l ih =>
    simp [sortByKey, mem_insertByKey, ih]

theorem mem_getAllLocalizations {st : DBState} {x : LocalizationEntry} :
    x ∈ getAllLocalizations st ↔ x ∈ st.entries := mem_sortByKey

theorem find?_getAll_of_not_exists {st : DBState} {k : String}
    (h : keyExistsIn st k = false) :
    (getAllLocalizations st).find? (fun t => t.key == k) = none := by
  rw [List.find?_eq_none]
  intro x hx hpx
  exact (List.any_eq_false.mp h) x (mem_getAllLocalizations.mp hx) hpx

theorem find?_getAll_of_exists {st : DBState} {k : String}
    (h : keyExistsIn st k = true) :
    ∃ v, (getAllLocalizations st).find? (fun t => t.key == k) = some v := by
  obtain ⟨x, hx, hpx⟩ := List.any_eq_true.mp h
  cases hf : (getAllLocalizations st).find? (fun t => t.key == k) with
  | some v => exact ⟨v, rfl⟩
  | none => exact absurd hpx (List.find?_eq_none.mp hf x (mem_getAllLocalizations.mpr hx))

theorem keyExistsIn_mono {st st' : DBState} (hpre : st.entries <+: st'.entries) {k : String}
    (h : keyExistsIn st k = true) : keyExistsIn st' k = true := by
  obtain ⟨x, hx, hpx⟩ := List.any_eq_true.mp h
  exact List.any_eq_true.mpr ⟨x, hpre.subset hx, hpx⟩

theorem keyExistsIn_of_find?_none {st : DBState} {k : String}
    (hf : (getAllLocalizations st).find? (fun t => t.key == k) = none) :
    keyExistsIn st k = false := by
  cases hb : keyExistsIn st k
  · rfl
  · obtain ⟨v, hv⟩ := find?_getAll_of_exists hb
    rw [hf] at hv
    exact absurd hv (by simp)

theorem keyExistsIn_of_find?_some {st : DBState} {k : String} {v : LocalizationEntry}
    (hf : (getAllLocalizations st).find? (fun t => t.key == k) = some v) :
    keyExistsIn st k = true := by
  have h1 := List.find?_some hf
  have h2 := List.mem_of_find?_eq_some hf
  exact List.any_eq_true.mpr ⟨v, mem_getAllLocalizations.mp h2, h1⟩

theorem genId_inj {cid k k' : String} {now : Nat} (h : genId cid k now = genId cid k' now) :
    k = k' := by
  have hd := congrArg String.data h
  simp only [genId, String.data_append, List.append_assoc] at hd
  have h1 := List.append_cancel_left hd
  have h2 := List.append_cancel_left h1
  exact String.ext (List.append_cancel_right h2)

theorem keyExistsIn_append_single {st : DBState} {r : LocalizationEntry} {k : String} :
    keyExistsIn ⟨st.entries ++ [r]⟩ k = (keyExistsIn st k || (r.key == k)) := by
  simp [keyExistsIn, List.any_append]

theorem process_extends_entries (cid : String) (now : Nat) :
    ∀ (ets : List ExtractedText) (st : DBState),
    st.entries <+: (processAndSaveExtractedTexts ets cid now st).2.entries := by
  intro ets
  induction ets with
  | nil => intro st; exact List.prefix_rfl
  | cons e rest ih =>
    intro st
    simp only [processAndSaveExtractedTexts]
    split
    · exact ih st
    · split
      · exact ih st
      · split
        · rename_i st' heq
          have hpre : st.entries <+: st'.entries := by
            simp only [createLocalization] at heq
            split at heq
            · exact absurd heq (by simp)
            · split at heq
              · exact absurd heq (by simp)
              · injection heq with h
                rw [← h]
                exact ⟨_, rfl⟩
          exact hpre.trans (ih st')
        · exact ih st

theorem process_no_new (cid : String) (now : Nat) :
    ∀ (ets : List ExtractedText) (st : DBState),
    (∀ e ∈ ets, keyExistsIn st e.key = true ∨ e.translations = none) →
    processAndSaveExtractedTexts ets cid now st =
      ((ets.filter fun e => keyExistsIn st e.key).map fun e => e.key, st) := by
  intro ets
  induction ets with
  | nil => intro st h; simp [processAndSaveExtractedTexts]
  | cons e rest ih =>
    intro st h
    have hrest := fun x hx => h x (List.mem_cons_of_mem _ hx)
    by_cases hex : keyExistsIn st e.key = true
    · obtain ⟨v, hv⟩ := find?_getAll_of_exists hex
      simp only [processAndSaveExtractedTexts, hv, List.filter_cons, hex, if_true,
        List.map_cons]
      rw [ih st hrest]
    · have hex' : keyExistsIn st e.key = false := by
        cases hb : keyExistsIn st e.key
        · rfl
        · exact absurd hb hex
      have htr : e.translations = none := by
        rcases h e (List.mem_cons_self _ _) with h1 | h1
        · exact absurd h1 hex
        · exact h1
      have hv := find?_getAll_of_not_exists hex'
      simp only [processAndSaveExtractedTexts, hv, htr, List.filter_cons, hex',
        Bool.false_eq_true, if_false]
      exact ih st hrest

theorem process_run1 (cid : String) (now : Nat) :
    ∀ (ets : List ExtractedText) (st : DBState),
    (ets.map fun e => e.key).Nodup →
    (∀ e ∈ ets, ∀ r ∈ st.entries, r.id ≠ genId cid e.key now) →
    (∀ k, keyExistsIn (processAndSaveExtractedTexts ets cid now st).2 k = true ↔
        (keyExistsIn st k = true ∨ ∃ e ∈ ets, e.key = k ∧ e.translations ≠ none)) ∧
    ((processAndSaveExtractedTexts ets cid now st).1 =
      (ets.filter fun e =>
        keyExistsIn (processAndSaveExtractedTexts ets cid now st).2 e.key).map fun e => e.key) ∧
    (∀ r ∈ (processAndSaveExtractedTexts ets cid now st).2.entries,
      r ∈ st.entries ∨ ∃ e ∈ ets, r.id = genId cid e.key now) := by
  intro ets
  induction ets with
  | nil =>
    intro st _ _
    refine ⟨fun k => ?_, rfl, fun r hr => Or.inl hr⟩
    simp [processAndSaveExtractedTexts]
  | cons e rest ih =>
    intro st hnodup hid
    rw [List.map_cons, List.nodup_cons] at hnodup
    obtain ⟨hkey_notin, hnr⟩ := hnodup
    have hid_rest : ∀ x ∈ rest, ∀ r ∈ st.entries, r.id ≠ genId cid x.key now :=
      fun x hx => hid x (List.mem_cons_of_mem _ hx)
    cases hex : keyExistsIn st e.key with
    | true =>
      obtain ⟨v, hv⟩ := find?_getAll_of_exists hex
      obtain ⟨ih1, ih2, ih3⟩ := ih st hnr hid_rest
      simp only [processAndSaveExtractedTexts, hv]
      refine ⟨fun k => ?_, ?_, fun r hr => ?_⟩
      · rw [ih1 k]
        constructor
        · rintro (h | ⟨x, hx, hk, ht⟩)
          · exact Or.inl h
          · exact Or.inr ⟨x, List.mem_cons_of_mem _ hx, hk, ht⟩
        · rintro (h | ⟨x, hx, hk, ht⟩)
          · exact Or.inl h
          · rcases List.mem_cons.mp hx with rfl | hx'
            · exact Or.inl (hk ▸ hex)
            · exact Or.inr ⟨x, hx', hk, ht⟩
      · have hex' : keyExistsIn (processAndSaveExtractedTexts rest cid now st).2 e.key = true :=
          keyExistsIn_mono (process_extends_entries cid now rest st) hex
        simp only [List.filter_cons, hex', if_true, List.map_cons]
        rw [ih2]
      · rcases ih3 r hr with h | ⟨x, hx, hxe⟩
        · exact Or.inl h
        · exact Or.inr ⟨x, List.mem_cons_of_mem _ hx, hxe⟩
    | false =>
      have hv := find?_getAll_of_not_exists hex
      cases ht : e.translations with
      | none =>
        obtain ⟨ih1, ih2, ih3⟩ := ih st hnr hid_rest
        simp only [processAndSaveExtractedTexts, hv, ht]
        refine ⟨fun k => ?_, ?_, fun r hr => ?_⟩
        · rw [ih1 k]
          constructor
          · rintro (h | ⟨x, hx, hk, htx⟩)
            · exact Or.inl h
            · exact Or.inr ⟨x, List.mem_cons_of_mem _ hx, hk, htx⟩
          · rintro (h | ⟨x, hx, hk, htx⟩)
            · exact Or.inl h
            · rcases List.mem_cons.mp hx with rfl | hx'
              · exact absurd ht htx
              · exact Or.inr ⟨x, hx', hk, htx⟩
        · have hdrop : keyExistsIn (processAndSaveExtractedTexts rest cid now st).2 e.key
              = false := by
            cases hb : keyExistsIn (processAndSaveExtractedTexts rest cid now st).2 e.key
            · rfl
            · rcases (ih1 e.key).mp hb with h | ⟨x, hx, hk, _⟩
              · rw [hex] at h; exact absurd h (by simp)
              · have hmem : x.key ∈ rest.map fun e => e.key := List.mem_map_of_mem _ hx
                rw [hk] at hmem
                exact absurd hmem hkey_notin
          simp only [List.filter_cons, hdrop, Bool.false_eq_true, if_false]
          exact ih2
        · rcases ih3 r hr with h | ⟨x, hx, hxe⟩
          · exact Or.inl h
          · exact Or.inr ⟨x, List.mem_cons_of_mem _ hx, hxe⟩
      | some tr =>
        have hidany : st.entries.any (fun r => r.id == genId cid e.key now) = false := by
          rw [List.any_eq_false]
          intro r hr hbeq
          exact hid e (List.mem_cons_self _ _) r hr (by simpa using hbeq)
        have hkeyany : st.entries.any (fun r => r.key == e.key) = false := hex
        have hcreate : createLocalization st
            ⟨genId cid e.key now, e.key, tr.en, tr.es, tr.fr, tr.de, tr.ja, tr.zh⟩ =
            Except.ok
              ⟨st.entries ++ [⟨genId cid e.key now, e.key, tr.en, tr.es, tr.fr, tr.de,
                tr.ja, tr.zh⟩]⟩ := by
          simp [createLocalization, hidany, hkeyany]
        have hid2 : ∀ x ∈ rest,
            ∀ r ∈ (⟨st.entries ++ [⟨genId cid e.key now, e.key, tr.en, tr.es, tr.fr,
              tr.de, tr.ja, tr.zh⟩]⟩ : DBState).entries,
            r.id ≠ genId cid x.key now := by
          intro x hx r hr
          rcases List.mem_append.mp hr with hr | hr
          · exact hid_rest x hx r hr
          · have hrl : r = ⟨genId cid e.key now, e.key, tr.en, tr.es, tr.fr, tr.de,
                tr.ja, tr.zh⟩ := by
              simpa using hr
            subst hrl
            intro hgen
            have hkk : e.key = x.key := genId_inj hgen
            have hmem : x.key ∈ rest.map fun e => e.key := List.mem_map_of_mem _ hx
            rw [← hkk] at hmem
            exact hkey_notin hmem
        obtain ⟨ih1, ih2, ih3⟩ :=
          ih ⟨st.entries ++ [⟨genId cid e.key now, e.key, tr.en, tr.es, tr.fr, tr.de,
            tr.ja, tr.zh⟩]⟩ hnr hid2
        simp only [processAndSaveExtractedTexts, hv, ht, hcreate]
        refine ⟨fun k => ?_, ?_, fun r hr => ?_⟩
        · rw [ih1 k]
          rw [keyExistsIn_append_single]
          constructor
          · rintro (h | ⟨x, hx, hk, htx⟩)
            · rcases Bool.or_eq_true .. |>.mp h with h' | h'
              · exact Or.inl h'
              · exact Or.inr ⟨e, List.mem_cons_self _ _, by simpa using h', by simp [ht]⟩
            · exact Or.inr ⟨x, List.mem_cons_of_mem _ hx, hk, htx⟩
          · rintro (h | ⟨x, hx, hk, htx⟩)
            · exact Or.inl (by simp [h])
            · rcases List.mem_cons.mp hx with rfl | hx'
              · exact Or.inl (by simp [hk])
              · exact Or.inr ⟨x, hx', hk, htx⟩
        · have he_in : keyExistsIn
              (processAndSaveExtractedTexts rest cid now
                ⟨st.entries ++ [⟨genId cid e.key now, e.key, tr.en, tr.es, tr.fr, tr.de,
                  tr.ja, tr.zh⟩]⟩).2
              e.key = true := by
            refine keyExistsIn_mono (process_extends_entries cid now rest _) ?_
            rw [keyExistsIn_append_single]
            simp
          simp only [List.filter_cons, he_in, if_true, List.map_cons]
          rw [ih2]
        · rcases ih3 r hr with h | ⟨x, hx, hxe⟩
          · rcases List.mem_append.mp h with h' | h'
            · exact Or.inl h'
            · refine Or.inr ⟨e, List.mem_cons_self _ _, ?_⟩
              have hrl : r = ⟨genId cid e.key now, e.key, tr.en, tr.es, tr.fr, tr.de,
                  tr.ja, tr.zh⟩ := by
                simpa using h'
              rw [hrl]
          · exact Or.inr ⟨x, List.mem_cons_of_mem _ hx, hxe⟩

theorem createLocalization_ok {st : DBState} {ne : LocalizationEntry} {st' : DBState}
    (heq : createLocalization st ne = Except.ok st') :
    st'.entries = st.entries ++ [ne] ∧ ∀ r ∈ st.entries, ¬r.key = ne.key := by
  simp only [createLocalization] at heq
  split at heq
  · exact absurd heq (by simp)
  · split at heq
    · exact absurd heq (by simp)
    · rename_i h1 h2
      injection heq with h3
      constructor
      · rw [← h3]
      · intro r hr hk
        exact h2 (List.any_eq_true.mpr ⟨r, hr, by simp [hk]⟩)

theorem process_nodup (cid : String) (now : Nat) :
    ∀ (ets : List ExtractedText) (st : DBState),
    (st.entries.map fun r => r.key).Nodup →
    ((processAndSaveExtractedTexts ets cid now st).2.entries.map fun r => r.key).Nodup := by
  intro ets
  induction ets with
  | nil => intro st h; exact h
  | cons e rest ih =>
    intro st h
    simp only [processAndSaveExtractedTexts]
    split
    · exact ih st h
    · split
      · exact ih st h
      · split
        · rename_i st' heq
          obtain ⟨hentries, hfresh⟩ := createLocalization_ok heq
          refine ih st' ?_
          rw [hentries, List.map_append, List.nodup_append]
          refine ⟨h, by simp, ?_⟩
          intro a ha hb
          obtain ⟨r, hr, hrk⟩ := List.mem_map.mp ha
          refine hfresh r hr ?_
          rw [hrk]
          simpa using hb
        · exact ih st h

theorem extract_eq_nil {s : String} (h : rawKeys s = []) (svc : ServiceResponse) :
    extractLocalizationKeys svc s = [] := by
  have hm : rawMatches s = [] := by
    cases hm : rawMatches s with
    | nil => rfl
    | cons m ms =>
      unfold rawKeys at h
      rw [hm] at h
      simp at h
  unfold extractLocalizationKeys
  rw [hm]
  simp [buildExtracted]

theorem extract_countP (svc : ServiceResponse) (s : String) (k : String) :
    (extractLocalizationKeys svc s).countP (fun e => e.key == k) =
      (buildExtracted s (rawMatches s) []).countP fun e => e.key == k := by
  unfold extractLocalizationKeys
  by_cases h : (buildExtracted s (rawMatches s) []).isEmpty
  · simp [h]
  · rw [if_neg h]
    cases svc with
    | fail => rfl
    | ok m =>
      simp only [translateKeys, List.countP_map]
      rfl

theorem extract_key_facts {svc : ServiceResponse} {s : String} {e : ExtractedText}
    (h : e ∈ extractLocalizationKeys svc s) :
    e.key.toList ≠ [] ∧ ∀ c ∈ e.key.toList, isQuote c = false := by
  obtain ⟨m, hm, hk⟩ := extract_key_mem h
  obtain ⟨run, idx⟩ := m
  have hs := scanGo_sound _ _ _ hm
  rw [hk]
  exact hs

theorem extract_fail_translations_none {s : String} {e : ExtractedText}
    (h : e ∈ extractLocalizationKeys .fail s) : e.translations = none := by
  unfold extractLocalizationKeys at h
  by_cases hb : (buildExtracted s (rawMatches s) []).isEmpty
  · rw [if_pos hb] at h
    exact (mem_buildExtracted h).2.1
  · rw [if_neg hb] at h
    exact (mem_buildExtracted (h : e ∈ buildExtracted s (rawMatches s) [])).2.1

theorem rawKeys_single_call {q : Char} {k : String} (hq : isQuote q = true)
    (hne : k.toList ≠ []) (hk : ∀ c ∈ k.toList, isQuote c = false) :
    rawKeys (String.mk ('t' :: '(' :: q :: (k.toList ++ [q, ')']))) = [k] := by
  have hm : matchHere ('t' :: '(' :: q :: (k.toList ++ [q, ')'])) = some (k.toList, []) := by
    have h := matchHere_mk [] hq hq hne hk
    simpa using h
  unfold rawKeys rawMatches
  have hcons := scanGo_cons_some 0 hm
  rw [show (String.mk ('t' :: '(' :: q :: (k.toList ++ [q, ')']))).toList =
    't' :: '(' :: q :: (k.toList ++ [q, ')']) from rfl]
  rw [hcons]
  simp only [List.length_nil, scanGo, List.map_cons, List.map_nil]
  obtain ⟨d⟩ := k
  rfl

/- Claim theorems. -/

/-- C2: for every source text containing at least one t() occurrence with key
k, the extractor returns exactly one ExtractedReference for k, and the
sequence of keys it returns is ordered by the position of each distinct key's
first occurrence in the raw match sequence (first-seen order). -/
theorem extractor_dedup_first_seen (svc : ServiceResponse) (s k : String)
    (hocc : 1 ≤ (rawKeys s).count k) :
    (extractLocalizationKeys svc s).countP (fun e => e.key == k) = 1 ∧
    List.Pairwise (fun a b => firstIdx a (rawKeys s) < firstIdx b (rawKeys s))
      ((extractLocalizationKeys svc s).map fun e => e.key) := by
  constructor
  · rw [extract_countP, countP_buildExtracted]
    have hk : k ∈ rawKeys s := List.count_pos_iff.mp hocc
    unfold rawKeys at hk
    simp [hk]
  · rw [extract_map_key]
    exact buildExtracted_order s (rawMatches s) []

/-- C2 witness: a source with two occurrences of the same key yields exactly
one reference, in first-seen order. -/
theorem extractor_dedup_first_seen_witness :
    1 ≤ (rawKeys (String.mk ['t', '(', singleQuote, 'a', singleQuote, ')', 't', '(',
      singleQuote, 'a', singleQuote, ')'])).count "a" ∧
    (extractLocalizationKeys .fail (String.mk ['t', '(', singleQuote, 'a', singleQuote, ')',
      't', '(', singleQuote, 'a', singleQuote, ')'])).countP (fun e => e.key == "a") = 1 := by
  refine ⟨by decide, ?_⟩
  exact (extractor_dedup_first_seen .fail
    (String.mk ['t', '(', singleQuote, 'a', singleQuote, ')', 't', '(', singleQuote, 'a',
      singleQuote, ')']) "a" (by decide)).1

/-- C3: getTranslations returns a key-to-text mapping for each of the six
fixed locales and throws an InvalidLocale error for every other locale
before reading any row; updateLocalization throws an InvalidField error for
every field outside its fixed allow-list before writing anything (the error
value is returned with the state untouched). -/
theorem store_validates_locale_and_field (st : DBState) (locale id field value : String) :
    (locale ∈ validLocales →
      getTranslations st locale =
        Except.ok (st.entries.map fun e => (e.key, localeText e locale))) ∧
    (locale ∉ validLocales →
      getTranslations st locale = Except.error ("Invalid locale: " ++ locale)) ∧
    (field ∉ validFields →
      updateLocalization st id field value = Except.error ("Invalid field: " ++ field)) := by
  refine ⟨fun h => ?_, fun h => ?_, fun h => ?_⟩
  · unfold getTranslations
    rw [if_pos (List.elem_eq_true_of_mem h)]
  · unfold getTranslations
    rw [if_neg fun hc => h (List.mem_of_elem_eq_true hc)]
  · unfold updateLocalization
    rw [if_neg fun hc => h (List.mem_of_elem_eq_true hc)]

/-- C3 witness: a valid locale succeeds, an unknown locale and an unknown
field are rejected with the corresponding errors. -/
theorem store_validates_locale_and_field_witness :
    getTranslations ⟨[⟨"1", "nav_home", "Home", "Inicio", "", "", "", ""⟩]⟩ "es" =
      Except.ok [("nav_home", "Inicio")] ∧
    getTranslations ⟨[]⟩ "xx" = Except.error "Invalid locale: xx" ∧
    updateLocalization ⟨[]⟩ "1" "bogus" "v" = Except.error "Invalid field: bogus" := by
  refine ⟨?_, ?_, ?_⟩
  · exact (store_validates_locale_and_field
      ⟨[⟨"1", "nav_home", "Home", "Inicio", "", "", "", ""⟩]⟩ "es" "1" "en" "v").1
      (by decide)
  · exact (store_validates_locale_and_field ⟨[]⟩ "xx" "1" "en" "v").2.1 (by decide)
  · exact (store_validates_locale_and_field ⟨[]⟩ "en" "1" "bogus" "v").2.2 (by decide)

/-- C4: the context classifier computes exactly the first matching label, in
the fixed priority order, over the lowercased clamped 50-character window
(stated as equality with a direct transcription of the specification), and
its result is always one of the six labels. -/
theorem determineContext_window_priority (code : List Char) (matchIndex : Nat) :
    determineContext code matchIndex = determineContextSpec code matchIndex ∧
    determineContext code matchIndex ∈
      ["button", "placeholder", "heading", "label", "content", "general"] := by
  constructor
  · simp only [determineContext]
    unfold determineContextSpec
    split_ifs with h1 h2 h3 h4 h5
    · rw [contextRules, List.find?_cons_of_pos _
        (by simp only [List.any_cons, List.any_nil, Bool.or_false]; exact h1)]
    · rw [contextRules,
        List.find?_cons_of_neg _
          (by simp only [List.any_cons, List.any_nil, Bool.or_false]; exact h1),
        List.find?_cons_of_pos _
          (by simp only [List.any_cons, List.any_nil, Bool.or_false]; exact h2)]
    · rw [contextRules,
        List.find?_cons_of_neg _
          (by simp only [List.any_cons, List.any_nil, Bool.or_false]; exact h1),
        List.find?_cons_of_neg _
          (by simp only [List.any_cons, List.any_nil, Bool.or_false]; exact h2),
        List.find?_cons_of_pos _
          (by simp only [List.any_cons, List.any_nil, Bool.or_false, ← Bool.or_assoc]; exact h3)]
    · rw [contextRules,
        List.find?_cons_of_neg _
          (by simp only [List.any_cons, List.any_nil, Bool.or_false]; exact h1),
        List.find?_cons_of_neg _
          (by simp only [List.any_cons, List.any_nil, Bool.or_false]; exact h2),
        List.find?_cons_of_neg _
          (by simp only [List.any_cons, List.any_nil, Bool.or_false, ← Bool.or_assoc]; exact h3),
        List.find?_cons_of_pos _
          (by simp only [List.any_cons, List.any_nil, Bool.or_false]; exact h4)]
    · rw [contextRules,
        List.find?_cons_of_neg _
          (by simp only [List.any_cons, List.any_nil, Bool.or_false]; exact h1),
        List.find?_cons_of_neg _
          (by simp only [List.any_cons, List.any_nil, Bool.or_false]; exact h2),
        List.find?_cons_of_neg _
          (by simp only [List.any_cons, List.any_nil, Bool.or_false, ← Bool.or_assoc]; exact h3),
        List.find?_cons_of_neg _
          (by simp only [List.any_cons, List.any_nil, Bool.or_false]; exact h4),
        List.find?_cons_of_pos _
          (by simp only [List.any_cons, List.any_nil, Bool.or_false]; exact h5)]
    · rw [contextRules,
        List.find?_cons_of_neg _
          (by simp only [List.any_cons, List.any_nil, Bool.or_false]; exact h1),
        List.find?_cons_of_neg _
          (by simp only [List.any_cons, List.any_nil, Bool.or_false]; exact h2),
        List.find?_cons_of_neg _
          (by simp only [List.any_cons, List.any_nil, Bool.or_false, ← Bool.or_assoc]; exact h3),
        List.find?_cons_of_neg _
          (by simp only [List.any_cons, List.any_nil, Bool.or_false]; exact h4),
        List.find?_cons_of_neg _
          (by simp only [List.any_cons, List.any_nil, Bool.or_false]; exact h5),
        List.find?_nil]
  · simp only [determineContext]
    split_ifs <;> simp

/-- C5: a persistence run preserves the at-most-one-record-per-key invariant,
never touches existing rows (the old table is a prefix of the new one, so
every existing record keeps its id and all six locale texts), and afterwards
two rows sharing a key are the same row. -/
theorem store_at_most_one_record_per_key (ets : List ExtractedText) (cid : String)
    (now : Nat) (st : DBState)
    (h : (st.entries.map fun r => r.key).Nodup) :
    ((processAndSaveExtractedTexts ets cid now st).2.entries.map fun r => r.key).Nodup ∧
    st.entries <+: (processAndSaveExtractedTexts ets cid now st).2.entries ∧
    ∀ r ∈ (processAndSaveExtractedTexts ets cid now st).2.entries,
      ∀ r' ∈ (processAndSaveExtractedTexts ets cid now st).2.entries,
      r.key = r'.key → r = r' := by
  have hnd := process_nodup cid now ets st h
  exact ⟨hnd, process_extends_entries cid now ets st,
    fun r hr r' hr' hk => List.inj_on_of_nodup_map hnd hr hr' hk⟩

/-- C5 witness: a run that inserts one fresh key on a one-row store keeps
the invariant and leaves the old row in place. -/
theorem store_at_most_one_record_per_key_witness :
    ((([⟨"1", "a", "", "", "", "", "", ""⟩] : List LocalizationEntry).map
        fun r => r.key).Nodup) ∧
    (((processAndSaveExtractedTexts
        [⟨"b", "b", none, some ⟨"B", "B", "B", "B", "B", "B"⟩⟩] "c" 0
        ⟨[⟨"1", "a", "", "", "", "", "", ""⟩]⟩).2.entries.map fun r => r.key).Nodup ∧
      ([⟨"1", "a", "", "", "", "", "", ""⟩] : List LocalizationEntry) <+:
        (processAndSaveExtractedTexts
          [⟨"b", "b", none, some ⟨"B", "B", "B", "B", "B", "B"⟩⟩] "c" 0
          ⟨[⟨"1", "a", "", "", "", "", "", ""⟩]⟩).2.entries) := by
  refine ⟨by decide, ?_⟩
  have h := store_at_most_one_record_per_key
    [⟨"b", "b", none, some ⟨"B", "B", "B", "B", "B", "B"⟩⟩] "c" 0
    ⟨[⟨"1", "a", "", "", "", "", "", ""⟩]⟩ (by decide)
  exact ⟨h.1, h.2.1⟩

/-- C7: a source with no translation-call match yields an empty extraction
(whatever the translation service would answer, it is not consulted), and
the orchestrator returns an empty savedKeys manifest leaving the store
unchanged. -/
theorem no_call_sites_empty_manifest (svc : ServiceResponse) (s componentId : String)
    (now : Nat) (st : DBState) (h : rawKeys s = []) :
    extractLocalizationKeys svc s = [] ∧
    (processComponentWithTranslations svc s componentId now st).savedKeys = [] ∧
    (processComponentWithTranslations svc s componentId now st).state = st := by
  have he := extract_eq_nil h svc
  refine ⟨he, ?_, ?_⟩ <;>
    simp [processComponentWithTranslations, he, processAndSaveExtractedTexts]

/-- C7 witness: a plain markup source produces no keys and an empty
manifest. -/
theorem no_call_sites_empty_manifest_witness :
    rawKeys "<div>hello</div>" = [] ∧
    extractLocalizationKeys .fail "<div>hello</div>" = [] ∧
    (processComponentWithTranslations .fail "<div>hello</div>" "c" 0 ⟨[]⟩).savedKeys = [] := by
  refine ⟨by decide, ?_, ?_⟩
  · exact (no_call_sites_empty_manifest .fail "<div>hello</div>" "c" 0 ⟨[]⟩ (by decide)).1
  · exact (no_call_sites_empty_manifest .fail "<div>hello</div>" "c" 0 ⟨[]⟩ (by decide)).2.1

/-- C8: a call site written with any of the three quote styles is recognised
and its quoted literal is the captured key; every captured key stops at the
first quote character (it can contain none, in particular none of the same
style as its delimiter); and a literal with an escaped same-style quote
directly before the closing parenthesis is truncated at that quote, as in
the concrete third conjunct. -/
theorem extractor_quote_styles :
    (∀ (q : Char) (k : String), isQuote q = true → k.toList ≠ [] →
      (∀ c ∈ k.toList, isQuote c = false) →
      rawKeys (String.mk ('t' :: '(' :: q :: (k.toList ++ [q, ')']))) = [k]) ∧
    (∀ (s : String), ∀ m ∈ rawMatches s, ∀ c ∈ m.1, isQuote c = false) ∧
    rawKeys (String.mk ['t', '(', singleQuote, 'i', 't', '\\', singleQuote, ')',
      'r', singleQuote, ')']) = [String.mk ['i', 't', '\\']] := by
  refine ⟨fun q k hq hne hk => rawKeys_single_call hq hne hk, ?_, by decide⟩
  intro s m hm
  obtain ⟨run, idx⟩ := m
  exact (scanGo_sound _ _ _ hm).2

/-- C8 witness: the single-call shape is exercised at each quote style. -/
theorem extractor_quote_styles_witness :
    rawKeys (String.mk ('t' :: '(' :: singleQuote :: ("k".toList ++ [singleQuote, ')']))) =
      ["k"] ∧
    rawKeys (String.mk ('t' :: '(' :: '"' :: ("k".toList ++ ['"', ')']))) = ["k"] ∧
    rawKeys (String.mk ('t' :: '(' :: backQuote :: ("k".toList ++ [backQuote, ')']))) =
      ["k"] := by
  refine ⟨?_, ?_, ?_⟩
  · exact extractor_quote_styles.1 singleQuote "k" (by decide) (by decide) (by decide)
  · exact extractor_quote_styles.1 '"' "k" (by decide) (by decide) (by decide)
  · exact extractor_quote_styles.1 backQuote "k" (by decide) (by decide) (by decide)

/-- C9: persisting an extracted text whose key already has a record is
absorbed as a no-op: the key is still recorded in savedKeys, the store is
untouched by that element, the remaining texts are processed exactly as
they would have been, and no error escapes (the loop is a total function
into savedKeys and a store). -/
theorem existing_key_absorbed_as_noop (extracted : ExtractedText)
    (rest : List ExtractedText) (componentId : String) (now : Nat) (st : DBState)
    (h : ∃ r ∈ st.entries, r.key = extracted.key) :
    (processAndSaveExtractedTexts (extracted :: rest) componentId now st).1 =
      extracted.key :: (processAndSaveExtractedTexts rest componentId now st).1 ∧
    (processAndSaveExtractedTexts (extracted :: rest) componentId now st).2 =
      (processAndSaveExtractedTexts rest componentId now st).2 := by
  have hex : keyExistsIn st extracted.key = true := by
    obtain ⟨r, hr, hk⟩ := h
    exact List.any_eq_true.mpr ⟨r, hr, by simp [hk]⟩
  obtain ⟨v, hv⟩ := find?_getAll_of_exists hex
  constructor <;> simp [processAndSaveExtractedTexts, hv]

/-- C9 witness: a key that is already stored is returned in savedKeys and
the store stays as it was. -/
theorem existing_key_absorbed_as_noop_witness :
    (∃ r ∈ ([⟨"1", "k", "", "", "", "", "", ""⟩] : List LocalizationEntry), r.key = "k") ∧
    (processAndSaveExtractedTexts [⟨"k", "k", none, none⟩] "c" 0
      ⟨[⟨"1", "k", "", "", "", "", "", ""⟩]⟩).1 = ["k"] ∧
    (processAndSaveExtractedTexts [⟨"k", "k", none, none⟩] "c" 0
      ⟨[⟨"1", "k", "", "", "", "", "", ""⟩]⟩).2 =
      ⟨[⟨"1", "k", "", "", "", "", "", ""⟩]⟩ := by
  have h := existing_key_absorbed_as_noop ⟨"k", "k", none, none⟩ [] "c" 0
    ⟨[⟨"1", "k", "", "", "", "", "", ""⟩]⟩ (by decide)
  exact ⟨by decide, h.1, h.2⟩

/-- C10: every reference produced by the extractor has a nonempty key
containing none of the three quote characters, and a call site with an
empty literal yields no reference at all. -/
theorem extracted_keys_nonempty_quote_free :
    (∀ (svc : ServiceResponse) (s : String), ∀ e ∈ extractLocalizationKeys svc s,
      e.key ≠ "" ∧ ∀ c ∈ e.key.toList, isQuote c = false) ∧
    ∀ svc : ServiceResponse,
      extractLocalizationKeys svc (String.mk ['t', '(', singleQuote, singleQuote, ')']) = [] := by
  constructor
  · intro svc s e he
    obtain ⟨h1, h2⟩ := extract_key_facts he
    refine ⟨?_, h2⟩
    intro hk
    rw [hk] at h1
    exact h1 rfl
  · intro svc
    exact extract_eq_nil (by decide) svc

/-- C10 witness: the single extracted reference of a one-call source has the
nonempty quote-free key x. -/
theorem extracted_keys_nonempty_quote_free_witness :
    ((⟨"x", "x", some "general", none⟩ : ExtractedText) ∈
      extractLocalizationKeys .fail (String.mk ['t', '(', singleQuote, 'x', singleQuote, ')'])) ∧
    ("x" ≠ "" ∧ ∀ c ∈ "x".toList, isQuote c = false) := by
  refine ⟨by decide, ?_⟩
  exact extracted_keys_nonempty_quote_free.1 .fail
    (String.mk ['t', '(', singleQuote, 'x', singleQuote, ')'])
    ⟨"x", "x", some "general", none⟩ (by decide)

/-- C1 counterexample: with a failing translation service and an empty
store, the orchestrator extracts the new key hello, yet the store it
returns holds no record at all for that key, contradicting the claim that
every newly extracted key is persisted with the key text in all six
locales. The orchestrator still returns this value normally. -/
theorem translation_failure_persists_nothing_cex :
    ((processComponentWithTranslations .fail
        (String.mk ['t', '(', singleQuote, 'h', 'e', 'l', 'l', 'o', singleQuote, ')'])
        "c" 0 ⟨[]⟩).extractedTexts.map fun e => e.key) = ["hello"] ∧
    ¬∃ r ∈ (processComponentWithTranslations .fail
        (String.mk ['t', '(', singleQuote, 'h', 'e', 'l', 'l', 'o', singleQuote, ')'])
        "c" 0 ⟨[]⟩).state.entries, r.key = "hello" := by
  constructor
  · decide
  · decide

/-- C1 amended: if the translation service call fails, the orchestrator
still returns normally (it is a total function into a ProcessResult), but
newly extracted keys are skipped rather than persisted with key-as-text:
the store is returned unchanged, savedKeys lists only the keys that were
already persisted, and no record exists for any new key. The key-as-text
fallback the specification describes happens only at render time, where a
missing key displays as itself; it is never written to the store. -/
theorem translation_failure_skips_new_keys (s componentId : String) (now : Nat)
    (st : DBState) :
    (processComponentWithTranslations .fail s componentId now st).state = st ∧
    (processComponentWithTranslations .fail s componentId now st).savedKeys =
      (((processComponentWithTranslations .fail s componentId now st).extractedTexts.filter
        fun e => keyExistsIn st e.key).map fun e => e.key) ∧
    ∀ e ∈ (processComponentWithTranslations .fail s componentId now st).extractedTexts,
      keyExistsIn st e.key = false →
      ∀ r ∈ (processComponentWithTranslations .fail s componentId now st).state.entries,
        r.key ≠ e.key := by
  have hpre : ∀ e ∈ extractLocalizationKeys .fail s,
      keyExistsIn st e.key = true ∨ e.translations = none :=
    fun e he => Or.inr (extract_fail_translations_none he)
  have hno := process_no_new componentId now (extractLocalizationKeys .fail s) st hpre
  refine ⟨?_, ?_, ?_⟩
  · simp [processComponentWithTranslations, hno]
  · simp [processComponentWithTranslations, hno]
  · intro e he hkf r hr hk
    simp only [processComponentWithTranslations, hno] at hr
    have : keyExistsIn st e.key = true := List.any_eq_true.mpr ⟨r, hr, by simp [hk]⟩
    rw [hkf] at this
    exact absurd this (by simp)

/-- C1 amended witness: on an empty store with a failing service, the
orchestrator returns the store unchanged and an empty savedKeys list. -/
theorem translation_failure_skips_new_keys_witness :
    (processComponentWithTranslations .fail
      (String.mk ['t', '(', singleQuote, 'h', 'i', singleQuote, ')']) "c" 0 ⟨[]⟩).state =
      ⟨[]⟩ ∧
    (processComponentWithTranslations .fail
      (String.mk ['t', '(', singleQuote, 'h', 'i', singleQuote, ')']) "c" 0 ⟨[]⟩).savedKeys =
      ((processComponentWithTranslations .fail
        (String.mk ['t', '(', singleQuote, 'h', 'i', singleQuote, ')']) "c" 0
        ⟨[]⟩).extractedTexts.filter fun e => keyExistsIn ⟨[]⟩ e.key).map fun e => e.key := by
  have h := translation_failure_skips_new_keys
    (String.mk ['t', '(', singleQuote, 'h', 'i', singleQuote, ')']) "c" 0 ⟨[]⟩
  exact ⟨h.1, h.2.1⟩

/-- C6 counterexample: the claim fails without a freshness assumption on the
generated row ids. The store already holds a row whose id is cid_k_5 (such
a row is reachable, for example by updateLocalization rewriting the key
column of a previously created row). The first run at Date.now() = 5
computes exactly that id for the new key k, the insert throws, the error is
swallowed, and k is silently dropped: savedKeys is empty and no record for
k exists. The second run at Date.now() = 6 generates a fresh id, inserts k
and returns savedKeys = [k]: the two manifests differ and so do the per-key
record counts after each run. -/
theorem orchestrator_not_idempotent_cex :
    let svc : ServiceResponse := .ok [("k", ⟨"K", "K", "K", "K", "K", "K"⟩)]
    let src := String.mk ['t', '(', singleQuote, 'k', singleQuote, ')']
    let st0 : DBState := ⟨[⟨"cid_k_5", "other", "", "", "", "", "", ""⟩]⟩
    let r1 := processComponentWithTranslations svc src "cid" 5 st0
    let r2 := processComponentWithTranslations svc src "cid" 6 r1.state
    r1.savedKeys = [] ∧ r2.savedKeys = ["k"] ∧
    r1.state.entries.countP (fun r => r.key == "k") = 0 ∧
    r2.state.entries.countP (fun r => r.key == "k") = 1 := by
  decide

/-- C6 amended: provided no existing row has an id colliding with an id the
first run generates (componentId, key and first timestamp), running the
orchestrator twice on identical source with identical service data yields
the same savedKeys manifest, an unchanged store on the second run, and
equal per-key record counts, for any pair of timestamps. -/
theorem orchestrator_idempotent_amended (svc : ServiceResponse) (s componentId : String)
    (now1 now2 : Nat) (st : DBState)
    (hid : ∀ e ∈ extractLocalizationKeys svc s, ∀ r ∈ st.entries,
      r.id ≠ genId componentId e.key now1) :
    (processComponentWithTranslations svc s componentId now2
        (processComponentWithTranslations svc s componentId now1 st).state).savedKeys =
      (processComponentWithTranslations svc s componentId now1 st).savedKeys ∧
    (processComponentWithTranslations svc s componentId now2
        (processComponentWithTranslations svc s componentId now1 st).state).state =
      (processComponentWithTranslations svc s componentId now1 st).state ∧
    ∀ k, (processComponentWithTranslations svc s componentId now2
        (processComponentWithTranslations svc s componentId now1 st).state).state.entries.countP
          (fun r => r.key == k) =
      (processComponentWithTranslations svc s componentId now1 st).state.entries.countP
        fun r => r.key == k := by
  have hnodup : ((extractLocalizationKeys svc s).map fun e => e.key).Nodup := by
    rw [extract_map_key]
    exact buildExtracted_keys_nodup s (rawMatches s) []
  obtain ⟨ih1, ih2, ih3⟩ :=
    process_run1 componentId now1 (extractLocalizationKeys svc s) st hnodup hid
  have hpre : ∀ e ∈ extractLocalizationKeys svc s,
      keyExistsIn
        (processAndSaveExtractedTexts (extractLocalizationKeys svc s) componentId now1 st).2
        e.key = true ∨ e.translations = none := by
    intro e he
    cases ht : e.translations with
    | none => exact Or.inr rfl
    | some tr =>
      refine Or.inl ((ih1 e.key).mpr (Or.inr ⟨e, he, rfl, ?_⟩))
      simp [ht]
  have hA := process_no_new componentId now2 (extractLocalizationKeys svc s) _ hpre
  refine ⟨?_, ?_, fun k => ?_⟩ <;> simp only [processComponentWithTranslations]
  · rw [hA]
    exact ih2.symm
  · rw [hA]
  · rw [hA]

/-- C6 amended witness: with an empty store (so no id collision is
possible) two runs at different timestamps agree on the manifest and on
the resulting store. -/
theorem orchestrator_idempotent_amended_witness :
    (processComponentWithTranslations (.ok [("k", ⟨"K", "K", "K", "K", "K", "K"⟩)])
        (String.mk ['t', '(', singleQuote, 'k', singleQuote, ')']) "c" 1
        (processComponentWithTranslations (.ok [("k", ⟨"K", "K", "K", "K", "K", "K"⟩)])
          (String.mk ['t', '(', singleQuote, 'k', singleQuote, ')']) "c" 0
          ⟨[]⟩).state).savedKeys =
      (processComponentWithTranslations (.ok [("k", ⟨"K", "K", "K", "K", "K", "K"⟩)])
        (String.mk ['t', '(', singleQuote, 'k', singleQuote, ')']) "c" 0 ⟨[]⟩).savedKeys ∧
    (processComponentWithTranslations (.ok [("k", ⟨"K", "K", "K", "K", "K", "K"⟩)])
        (String.mk ['t', '(', singleQuote, 'k', singleQuote, ')']) "c" 1
        (processComponentWithTranslations (.ok [("k", ⟨"K", "K", "K", "K", "K", "K"⟩)])
          (String.mk ['t', '(', singleQuote, 'k', singleQuote, ')']) "c" 0
          ⟨[]⟩).state).state =
      (processComponentWithTranslations (.ok [("k", ⟨"K", "K", "K", "K", "K", "K"⟩)])
        (String.mk ['t', '(', singleQuote, 'k', singleQuote, ')']) "c" 0 ⟨[]⟩).state := by
  have h := orchestrator_idempotent_amended (.ok [("k", ⟨"K", "K", "K", "K", "K", "K"⟩)])
    (String.mk ['t', '(', singleQuote, 'k', singleQuote, ')']) "c" 0 1 ⟨[]⟩ (by decide)
  exact ⟨h.1, h.2.1⟩
